import Mathlib

/-!
Verification development for the phone price scraper (src/scrapper.py).

The two pieces of logic under scrutiny are embedded here as pure Lean
functions over exact rationals:

- the price text parser `GermanGoogleScraper._extract_price` (the
  regex pattern \d+(?:\.\d+)* with an optional comma fraction group,
  first match, thousands dots stripped, Exception when no digits are
  found);
- the price listing extractor `GermanGoogleScraper._extract_prices`
  (iterate fragments, a fragment starting with a plus sign assigns the shipping
  attribute of the last created Price, any other fragment appends a new
  Price; with no previous Price the attribute assignment on None is an
  AttributeError);
- the aggregation methods of `Phone` (`remove_outliers`, `cheapest`,
  `most_expensive`) and the helper `_fold`.

Modelling conventions: Python floats are embedded as exact rationals,
text fragments as lists of characters, digits as the ASCII digits
matched in the scraped German pages, and each raise site as an explicit
error value of type `ScrapeError`.
-/

/-- Errors raised inside the scraper. `parseError` embeds the
Exception raised in `_extract_price` when the regex finds no match; the
message of that Exception carries the offending fragment, so the
constructor does as well. `noneShippingAttr` embeds the AttributeError
that the statement `last.shipping = ...` in `_extract_prices` produces
when `last` is still None. -/
inductive ScrapeError where
  | parseError (text : List Char)
  | noneShippingAttr
deriving DecidableEq

/-- Embedding of class `Price` (src/scrapper.py lines 12-18): a base
price and a shipping cost. -/
structure Price where
  base_price : ℚ
  shipping : ℚ
deriving DecidableEq

/-- Method `Price.total`: base price plus shipping. -/
def Price.total (p : Price) : ℚ :=
  p.base_price + p.shipping

/-- Embedding of the namedtuple `PhoneInfo` (src/scrapper.py line 9):
a record of fixed text fields, parsed from one input line. -/
structure PhoneInfo where
  manufacturer : List Char
  model_name : List Char
  model_code : List Char
  ram : List Char
  form_factor : List Char
  soc : List Char
  screen_sizes : List Char
  screen_densities : List Char
  ABIs : List Char
  android_sdk_versions : List Char
  opengl_es_versions : List Char
deriving DecidableEq

/-- Embedding of class `Phone` (src/scrapper.py lines 27-30): a
PhoneInfo together with the list of scraped prices. -/
structure Phone where
  info : PhoneInfo
  prices : List Price

/-- Python builtin `min` on a nonempty list; the empty case never
arises because every call site is guarded by a length check. -/
def listMin : List ℚ → ℚ
  | [] => 0
  | x :: xs => xs.foldl min x

/-- Python builtin `max` on a nonempty list, as `listMin`. -/
def listMax : List ℚ → ℚ
  | [] => 0
  | x :: xs => xs.foldl max x

/-- Embedding of `Phone._fold` (src/scrapper.py lines 32-33): return
the default when the list is empty, otherwise apply `f` to the list of
totals. -/
def foldPrices (xs : List Price) (f : List ℚ → ℚ) (default : ℚ) : ℚ :=
  if xs.length = 0 then default else f (xs.map Price.total)

/-- Embedding of `Phone.remove_outliers` (src/scrapper.py lines 43-47):
an empty price list is returned as is; otherwise the mean of all totals
is computed once and the list is filtered to the entries whose absolute
deviation from that mean is strictly below `deviation` times the mean.
The Python default for `deviation` is 0.5; call sites pass it
explicitly here. -/
def Phone.remove_outliers (ph : Phone) (deviation : ℚ) : List Price :=
  if ph.prices.length = 0 then ph.prices
  else
    let avg := (ph.prices.map Price.total).sum / (ph.prices.length : ℚ)
    ph.prices.filter (fun p => decide (|avg - p.total| < deviation * avg))

/-- Embedding of the property `Phone.cheapest` (src/scrapper.py lines
35-37): fold the outlier-filtered list (the `normalised` parameter of
the Python property is always its default True) with `min` and default
0. -/
def Phone.cheapest (ph : Phone) : ℚ :=
  foldPrices (ph.remove_outliers (1/2)) listMin 0

/-- Embedding of the property `Phone.most_expensive` (src/scrapper.py
lines 39-41). -/
def Phone.most_expensive (ph : Phone) : ℚ :=
  foldPrices (ph.remove_outliers (1/2)) listMax 0

/-- Python `str.startswith` applied with the one character pattern used
in `_extract_prices`. -/
def startsWithPlus : List Char → Bool
  | [] => false
  | c :: _ => c = '+'

/-- Numeric value of a string of decimal digits, as Python `int` and
`float` read the digit runs pasted together in `_extract_price`. -/
def natOfDigits (l : List Char) : ℕ :=
  l.foldl (fun n c => 10 * n + (c.toNat - '0'.toNat)) 0

/-- Maximal munch of the regex part `\d+(?:\.\d+)*` starting at a digit:
consume a run of digits, then repeatedly a dot that is followed by at
least one digit together with the following digit run. Returns the
consumed characters (group 1 of the regex, dots included) and the rest
of the input. Only ever applied to input whose first character is a
digit. -/
def munch : List Char → List Char × List Char
  | [] => ([], [])
  | c :: cs =>
    if c.isDigit then
      let pr := munch cs
      (c :: pr.1, pr.2)
    else if c = '.' then
      match cs with
      | d :: ds =>
        if d.isDigit then
          let pr := munch ds
          (c :: d :: pr.1, pr.2)
        else ([], c :: cs)
      | [] => ([], [c])
    else ([], c :: cs)

/-- First match of the regex (\d+(?:\.\d+)*)(?:,(\d+))? used in
`_extract_price`: scan to the first digit, munch group 1 there, then
read the optional comma fraction as group 2 (empty list when the group
is absent, which Python reports as the empty string). `none` when the
text contains no digit, mirroring an empty findall result. -/
def firstMatch : List Char → Option (List Char × List Char)
  | [] => none
  | c :: cs =>
    if c.isDigit then
      let pr := munch (c :: cs)
      let frac :=
        match pr.2 with
        | c2 :: cs2 => if c2 = ',' then cs2.takeWhile Char.isDigit else []
        | [] => []
      some (pr.1, frac)
    else firstMatch cs

/-- Embedding of `GermanGoogleScraper._extract_price` (src/scrapper.py
lines 83-89): fail with `parseError` when findall returns nothing;
otherwise strip the dots out of group 1, default the fraction to the
single digit 0 when group 2 is empty, and return the value
number.decimal as an exact rational. -/
def extract_price (text : List Char) : Except ScrapeError ℚ :=
  match firstMatch text with
  | none => .error (.parseError text)
  | some (g1, g2) =>
    let number := g1.filter Char.isDigit
    let decimal := if g2 = [] then ['0'] else g2
    .ok ((natOfDigits number : ℚ) + (natOfDigits decimal : ℚ) / (10 : ℚ) ^ decimal.length)

/-- Loop of `GermanGoogleScraper._extract_prices` (src/scrapper.py
lines 91-101). The accumulator holds the prices created so far in
reverse order, so its head is the Python variable `last`. A fragment
starting with a plus sign first evaluates `_extract_price` (the right hand side
of the Python assignment), then assigns the shipping attribute of
`last`; when no Price has been created yet, `last` is None and the
assignment raises an AttributeError. Any other fragment appends a new
Price with shipping 0. -/
def extract_prices_aux : List (List Char) → List Price → Except ScrapeError (List Price)
  | [], acc => .ok acc.reverse
  | pt :: rest, acc =>
    if startsWithPlus pt then
      match extract_price pt with
      | .error e => .error e
      | .ok v =>
        match acc with
        | [] => .error .noneShippingAttr
        | last :: tail => extract_prices_aux rest (Price.mk last.base_price v :: tail)
    else
      match extract_price pt with
      | .error e => .error e
      | .ok v => extract_prices_aux rest (Price.mk v 0 :: acc)

/-- Embedding of `GermanGoogleScraper._extract_prices` on the ordered
sequence of text fragments matched in the document. -/
def extract_prices (frags : List (List Char)) : Except ScrapeError (List Price) :=
  extract_prices_aux frags []

/-- Instrumented copy of the `_extract_prices` loop that carries, with
every created Price, the number of times its shipping attribute has
been assigned after construction. The control flow is identical to
`extract_prices_aux`. -/
def extract_prices_tr_aux :
    List (List Char) → List (Price × ℕ) → Except ScrapeError (List (Price × ℕ))
  | [], acc => .ok acc.reverse
  | pt :: rest, acc =>
    if startsWithPlus pt then
      match extract_price pt with
      | .error e => .error e
      | .ok v =>
        match acc with
        | [] => .error .noneShippingAttr
        | (last, n) :: tail =>
          extract_prices_tr_aux rest ((Price.mk last.base_price v, n + 1) :: tail)
    else
      match extract_price pt with
      | .error e => .error e
      | .ok v => extract_prices_tr_aux rest ((Price.mk v 0, 0) :: acc)

/-- Instrumented extraction: the same runs as `extract_prices`, with
shipping-write counters attached. -/
def extract_prices_tr (frags : List (List Char)) : Except ScrapeError (List (Price × ℕ)) :=
  extract_prices_tr_aux frags []

/-- Spec side definition, following the words of the outlier removal
contract: return the subset whose absolute deviation from the
arithmetic mean of all totals is strictly less than threshold times the
mean. Stated for comparison with `Phone.remove_outliers`. -/
def remove_outliers_spec (prices : List Price) (threshold : ℚ) : List Price :=
  let mean := (prices.map Price.total).sum / (prices.length : ℚ)
  prices.filter (fun p => decide (|p.total - mean| < threshold * mean))

/-- Spec side helper: parse every fragment of a list with the price
text parser, failing on the first failure. Used to state that the
extracted listing follows the order of the base price fragments. -/
def parsedValues : List (List Char) → Except ScrapeError (List ℚ)
  | [] => .ok []
  | t :: ts =>
    match extract_price t with
    | .error e => .error e
    | .ok v =>
      match parsedValues ts with
      | .error e => .error e
      | .ok vs => .ok (v :: vs)

/-- Spec side helper: no two adjacent fragments both start with a plus sign. -/
def noConsecPlus : List (List Char) → Bool
  | a :: b :: r => (!(startsWithPlus a && startsWithPlus b)) && noConsecPlus (b :: r)
  | _ => true

/-- Spec side helper: the head fragment starts with a plus sign. -/
def plusHead : List (List Char) → Bool
  | f :: _ => startsWithPlus f
  | [] => false

/-- Spec side shape of group 1 of the first regex match: one or more
nonempty runs of digits separated by single dots, the thousands
grouping of the fixed locale. -/
inductive LocaleGroup : List Char → Prop where
  | single (ds : List Char) : ds ≠ [] → (∀ c ∈ ds, c.isDigit = true) → LocaleGroup ds
  | dotted (ds g : List Char) : ds ≠ [] → (∀ c ∈ ds, c.isDigit = true) →
      LocaleGroup g → LocaleGroup (ds ++ '.' :: g)

/-- Spec side boundary condition: the regex match for group 1 stops
exactly here, because the remainder does not begin with a digit and
does not begin with a dot followed by a digit. -/
def stopsGroup : List Char → Bool
  | [] => true
  | [c] => !c.isDigit
  | c :: d :: _ => !c.isDigit && (!(c = '.') || !d.isDigit)

/-- Spec side reading of group 2 of the first match from the remainder
after group 1: the digits after a leading comma, empty when the
optional group is absent. -/
def commaFrac : List Char → List Char
  | [] => []
  | c :: cs => if c = ',' then cs.takeWhile Char.isDigit else []

/-- Spec side fractional value contributed by the remainder after group
1: the comma fraction scaled by ten to the power of its length, which
is 0 when the fraction is absent. -/
def fracValue (rest : List Char) : ℚ :=
  (natOfDigits (commaFrac rest) : ℚ) / (10 : ℚ) ^ (commaFrac rest).length

/-- Spec side transcription of the shipping merge of the price listing
contract: assign the shipping field of the most recently created Price,
that is the final element of the ordered output list; none when no
Price has been created yet. -/
def updateLastShipping : List Price → ℚ → Option (List Price)
  | [], _ => none
  | [p], v => some [Price.mk p.base_price v]
  | p :: q :: rest, v =>
    match updateLastShipping (q :: rest) v with
    | none => none
    | some out => some (p :: out)

/-- Spec side transcription of the price listing extraction contract,
written as a forward fold over the fragments in document order: every
fragment is parsed with the price text parser; a fragment starting with
a plus sign is merged into the shipping field of the most recently
created Price, any other fragment appends a new Price with base price
the parsed value and shipping 0, so the output order matches the
fragment order. A parse failure propagates, and a merge with no
preceding Price fails with the same error value the code produces
there. -/
def extract_prices_spec_go : List (List Char) → List Price → Except ScrapeError (List Price)
  | [], out => .ok out
  | f :: rest, out =>
    match extract_price f with
    | .error e => .error e
    | .ok v =>
      if startsWithPlus f then
        match updateLastShipping out v with
        | none => .error .noneShippingAttr
        | some out2 => extract_prices_spec_go rest out2
      else extract_prices_spec_go rest (out ++ [Price.mk v 0])

/-- Spec side price listing extraction, started with no Price created
yet. -/
def extract_prices_spec (frags : List (List Char)) : Except ScrapeError (List Price) :=
  extract_prices_spec_go frags []

/-- Helper for concrete test phones: a PhoneInfo with every text field
empty. -/
def emptyInfo : PhoneInfo :=
  PhoneInfo.mk [] [] [] [] [] [] [] [] [] [] []

/-! Helper lemmas about the parsing layer. -/

theorem takeWhile_all {α : Type} {p : α → Bool} :
    ∀ {l : List α}, (∀ c ∈ l, p c = true) → l.takeWhile p = l
  | [], _ => rfl
  | c :: cs, h => by
    have hc : p c = true := h c (List.mem_cons_self c cs)
    simp only [List.takeWhile_cons, hc, if_true]
    exact congrArg (c :: ·) (takeWhile_all fun x hx => h x (List.mem_cons_of_mem c hx))

theorem munch_digits_append {sep : Char} (hsep : sep.isDigit = false) (hdot : ¬ sep = '.') :
    ∀ {ds : List Char} (rest : List Char), (∀ c ∈ ds, c.isDigit = true) →
      munch (ds ++ sep :: rest) = (ds, sep :: rest)
  | [], rest, _ => by
    cases rest with
    | nil => simp [munch, hsep, hdot]
    | cons r rs => simp [munch, hsep, hdot]
  | d :: ds, rest, h => by
    have hd : d.isDigit = true := h d (List.mem_cons_self d ds)
    have ih := munch_digits_append hsep hdot rest
      (fun x hx => h x (List.mem_cons_of_mem d hx))
    cases ds with
    | nil =>
      simp only [List.nil_append] at ih
      simp [munch, hd, ih]
    | cons d2 ds2 =>
      simp only [List.cons_append] at ih
      simp [munch, hd, ih]

theorem firstMatch_none :
    ∀ {l : List Char}, (∀ c ∈ l, c.isDigit = false) → firstMatch l = none
  | [], _ => rfl
  | c :: cs, h => by
    have hc : c.isDigit = false := h c (List.mem_cons_self c cs)
    simp only [firstMatch, hc, Bool.false_eq_true, if_false]
    exact firstMatch_none fun x hx => h x (List.mem_cons_of_mem c hx)

theorem firstMatch_isSome :
    ∀ {l : List Char}, (∃ c ∈ l, c.isDigit = true) → (firstMatch l).isSome = true
  | c :: cs, h => by
    by_cases hc : c.isDigit = true
    · unfold firstMatch
      rw [if_pos hc]
      rfl
    · have hcs : ∃ x ∈ cs, x.isDigit = true := by
        obtain ⟨x, hx, hxd⟩ := h
        rcases List.mem_cons.mp hx with rfl | hx
        · exact absurd hxd hc
        · exact ⟨x, hx, hxd⟩
      have ih := firstMatch_isSome hcs
      unfold firstMatch
      rw [if_neg hc]
      exact ih

theorem extract_price_error {t : List Char} {e : ScrapeError}
    (h : extract_price t = .error e) : e = .parseError t := by
  unfold extract_price at h
  cases hm : firstMatch t with
  | none =>
    rw [hm] at h
    injection h with h2
    exact h2.symm
  | some r =>
    obtain ⟨g1, g2⟩ := r
    rw [hm] at h
    cases h

theorem extract_price_no_digits {t : List Char} (h : ∀ c ∈ t, c.isDigit = false) :
    extract_price t = .error (.parseError t) := by
  unfold extract_price
  rw [firstMatch_none h]

theorem extract_price_of_firstMatch {t g1 g2 : List Char}
    (hm : firstMatch t = some (g1, g2)) :
    extract_price t = .ok ((natOfDigits (g1.filter Char.isDigit) : ℚ) +
      (natOfDigits (if g2 = [] then ['0'] else g2) : ℚ) /
        (10 : ℚ) ^ (if g2 = [] then ['0'] else g2).length) := by
  unfold extract_price
  rw [hm]

theorem extract_price_ok_of_digit {t : List Char} (h : ∃ c ∈ t, c.isDigit = true) :
    ∃ q, extract_price t = .ok q := by
  have hs := firstMatch_isSome h
  cases hm : firstMatch t with
  | none => rw [hm] at hs; cases hs
  | some r =>
    obtain ⟨g1, g2⟩ := r
    exact ⟨_, extract_price_of_firstMatch hm⟩

/-! Helper lemmas about folded minima and maxima. -/

theorem foldl_min_le_init : ∀ (xs : List ℚ) (a : ℚ), xs.foldl min a ≤ a
  | [], _ => le_refl _
  | x :: xs, a => le_trans (foldl_min_le_init xs (min a x)) (min_le_left a x)

theorem foldl_min_le_mem : ∀ (xs : List ℚ) (a y : ℚ), y ∈ xs → xs.foldl min a ≤ y
  | x :: xs, a, y, hy => by
    rcases List.mem_cons.mp hy with rfl | hy
    · exact le_trans (foldl_min_le_init xs (min a y)) (min_le_right a y)
    · exact foldl_min_le_mem xs (min a x) y hy

theorem foldl_min_mem : ∀ (xs : List ℚ) (a : ℚ), xs.foldl min a = a ∨ xs.foldl min a ∈ xs
  | [], _ => Or.inl rfl
  | x :: xs, a => by
    rcases foldl_min_mem xs (min a x) with h | h
    · rcases min_choice a x with hm | hm
      · exact Or.inl (by rw [List.foldl_cons, h, hm])
      · exact Or.inr (by rw [List.foldl_cons, h, hm]; exact List.mem_cons_self x xs)
    · exact Or.inr (List.mem_cons_of_mem x h)

theorem init_le_foldl_max : ∀ (xs : List ℚ) (a : ℚ), a ≤ xs.foldl max a
  | [], _ => le_refl _
  | x :: xs, a => le_trans (le_max_left a x) (init_le_foldl_max xs (max a x))

theorem mem_le_foldl_max : ∀ (xs : List ℚ) (a y : ℚ), y ∈ xs → y ≤ xs.foldl max a
  | x :: xs, a, y, hy => by
    rcases List.mem_cons.mp hy with rfl | hy
    · exact le_trans (le_max_right a y) (init_le_foldl_max xs (max a y))
    · exact mem_le_foldl_max xs (max a x) y hy

theorem foldl_max_mem : ∀ (xs : List ℚ) (a : ℚ), xs.foldl max a = a ∨ xs.foldl max a ∈ xs
  | [], _ => Or.inl rfl
  | x :: xs, a => by
    rcases foldl_max_mem xs (max a x) with h | h
    · rcases max_choice a x with hm | hm
      · exact Or.inl (by rw [List.foldl_cons, h, hm])
      · exact Or.inr (by rw [List.foldl_cons, h, hm]; exact List.mem_cons_self x xs)
    · exact Or.inr (List.mem_cons_of_mem x h)

theorem listMin_mem : ∀ {l : List ℚ}, l ≠ [] → listMin l ∈ l
  | [], h => absurd rfl h
  | x :: xs, _ => by
    rcases foldl_min_mem xs x with h | h
    · rw [listMin, h]; exact List.mem_cons_self x xs
    · exact List.mem_cons_of_mem x (by rw [listMin]; exact h)

theorem listMin_le {l : List ℚ} {y : ℚ} (hy : y ∈ l) : listMin l ≤ y := by
  cases l with
  | nil => cases hy
  | cons x xs =>
    rcases List.mem_cons.mp hy with rfl | hy
    · exact foldl_min_le_init xs y
    · exact foldl_min_le_mem xs x y hy

theorem listMax_mem : ∀ {l : List ℚ}, l ≠ [] → listMax l ∈ l
  | [], h => absurd rfl h
  | x :: xs, _ => by
    rcases foldl_max_mem xs x with h | h
    · rw [listMax, h]; exact List.mem_cons_self x xs
    · exact List.mem_cons_of_mem x (by rw [listMax]; exact h)

theorem le_listMax {l : List ℚ} {y : ℚ} (hy : y ∈ l) : y ≤ listMax l := by
  cases l with
  | nil => cases hy
  | cons x xs =>
    rcases List.mem_cons.mp hy with rfl | hy
    · exact init_le_foldl_max xs y
    · exact mem_le_foldl_max xs x y hy

theorem listMin_le_listMax : ∀ {l : List ℚ}, l ≠ [] → listMin l ≤ listMax l
  | [], h => absurd rfl h
  | x :: xs, _ =>
    le_trans (foldl_min_le_init xs x) (init_le_foldl_max xs x)

/-! Helper lemmas about the extraction loop. -/

theorem extract_prices_aux_error_head {t : List Char} {rest : List (List Char)}
    {acc : List Price} {e : ScrapeError} (h : extract_price t = .error e) :
    extract_prices_aux (t :: rest) acc = .error e := by
  cases acc with
  | nil =>
    by_cases hp : startsWithPlus t = true
    · simp [extract_prices_aux, hp, h]
    · simp [extract_prices_aux, hp, h]
  | cons last tail =>
    by_cases hp : startsWithPlus t = true
    · simp [extract_prices_aux, hp, h]
    · simp [extract_prices_aux, hp, h]

theorem extract_prices_aux_base_prices (frags : List (List Char)) :
    ∀ acc res, extract_prices_aux frags acc = .ok res →
      ∃ vs, parsedValues (frags.filter (fun f => !(startsWithPlus f))) = .ok vs ∧
        res.map Price.base_price = acc.reverse.map Price.base_price ++ vs := by
  induction frags with
  | nil =>
    intro acc res h
    simp only [extract_prices_aux, Except.ok.injEq] at h
    subst h
    exact ⟨[], rfl, by simp⟩
  | cons pt rest ih =>
    intro acc res h
    by_cases hp : startsWithPlus pt = true
    · cases hv : extract_price pt with
      | error e =>
        cases acc with
        | nil => simp [extract_prices_aux, hp, hv] at h
        | cons last tail => simp [extract_prices_aux, hp, hv] at h
      | ok v =>
        cases acc with
        | nil => simp [extract_prices_aux, hp, hv] at h
        | cons last tail =>
          have h2 : extract_prices_aux rest (Price.mk last.base_price v :: tail) = .ok res := by
            simpa [extract_prices_aux, hp, hv] using h
          obtain ⟨vs, hvs, hbase⟩ := ih _ _ h2
          refine ⟨vs, ?_, ?_⟩
          · simpa [List.filter_cons, hp] using hvs
          · rw [hbase]
            simp [List.reverse_cons, List.map_append]
    · cases hv : extract_price pt with
      | error e =>
        cases acc with
        | nil => simp [extract_prices_aux, hp, hv] at h
        | cons last tail => simp [extract_prices_aux, hp, hv] at h
      | ok v =>
        have h2 : extract_prices_aux rest (Price.mk v 0 :: acc) = .ok res := by
          cases acc with
          | nil => simpa [extract_prices_aux, hp, hv] using h
          | cons last tail => simpa [extract_prices_aux, hp, hv] using h
        obtain ⟨vs, hvs, hbase⟩ := ih _ _ h2
        refine ⟨v :: vs, ?_, ?_⟩
        · simp [List.filter_cons, hp, parsedValues, hv, hvs]
        · rw [hbase]
          simp [List.reverse_cons, List.map_append]

theorem noConsecPlus_cons {a : List Char} {rest : List (List Char)}
    (h : noConsecPlus (a :: rest) = true) :
    noConsecPlus rest = true ∧ (startsWithPlus a = true → plusHead rest = false) := by
  cases rest with
  | nil => exact ⟨rfl, fun _ => rfl⟩
  | cons b r =>
    have h2 := h
    simp only [noConsecPlus, Bool.and_eq_true, Bool.not_eq_true', Bool.and_eq_false_iff] at h2
    refine ⟨h2.2, fun hpa => ?_⟩
    rcases h2.1 with hfa | hfb
    · rw [hpa] at hfa; cases hfa
    · simpa [plusHead] using hfb

theorem extract_prices_tr_aux_counts (frags : List (List Char)) :
    ∀ acc res, noConsecPlus frags = true →
      (∀ pn ∈ acc, Prod.snd pn ≤ 1) →
      (plusHead frags = true → ∀ p n tail, acc = (p, n) :: tail → n = 0) →
      extract_prices_tr_aux frags acc = .ok res →
      ∀ pn ∈ res, Prod.snd pn ≤ 1 := by
  induction frags with
  | nil =>
    intro acc res _ hacc _ h pn hpn
    simp only [extract_prices_tr_aux, Except.ok.injEq] at h
    subst h
    exact hacc pn (List.mem_reverse.mp hpn)
  | cons pt rest ih =>
    intro acc res hnc hacc hhead h pn hpn
    obtain ⟨hncr, hnext⟩ := noConsecPlus_cons hnc
    by_cases hp : startsWithPlus pt = true
    · cases hv : extract_price pt with
      | error e =>
        cases acc with
        | nil => simp [extract_prices_tr_aux, hp, hv] at h
        | cons hd tl => simp [extract_prices_tr_aux, hp, hv] at h
      | ok v =>
        cases acc with
        | nil => simp [extract_prices_tr_aux, hp, hv] at h
        | cons hd tl =>
          obtain ⟨p0, n0⟩ := hd
          have hn0 : n0 = 0 := hhead (by simp [plusHead, hp]) p0 n0 tl rfl
          have h2 : extract_prices_tr_aux rest ((Price.mk p0.base_price v, n0 + 1) :: tl)
              = .ok res := by
            simpa [extract_prices_tr_aux, hp, hv] using h
          refine ih _ res hncr ?_ ?_ h2 pn hpn
          · intro qn hqn
            rcases List.mem_cons.mp hqn with rfl | hqn
            · simp [hn0]
            · exact hacc qn (List.mem_cons_of_mem _ hqn)
          · intro hph
            rw [hnext hp] at hph
            cases hph
    · cases hv : extract_price pt with
      | error e =>
        cases acc with
        | nil => simp [extract_prices_tr_aux, hp, hv] at h
        | cons hd tl => simp [extract_prices_tr_aux, hp, hv] at h
      | ok v =>
        have h2 : extract_prices_tr_aux rest ((Price.mk v 0, 0) :: acc) = .ok res := by
          cases acc with
          | nil => simpa [extract_prices_tr_aux, hp, hv] using h
          | cons hd tl => simpa [extract_prices_tr_aux, hp, hv] using h
        refine ih _ res hncr ?_ ?_ h2 pn hpn
        · intro qn hqn
          rcases List.mem_cons.mp hqn with rfl | hqn
          · simp
          · exact hacc qn hqn
        · intro _ p n tail heq
          injection heq with heq1 _
          injection heq1 with _ heq2
          exact heq2.symm

/-! Further helper lemmas about the aggregation methods. -/

theorem foldPrices_nil {f : List ℚ → ℚ} {d : ℚ} : foldPrices [] f d = d := rfl

theorem foldPrices_of_ne_nil {xs : List Price} {f : List ℚ → ℚ} {d : ℚ} (h : xs ≠ []) :
    foldPrices xs f d = f (xs.map Price.total) := by
  unfold foldPrices
  rw [if_neg (fun h0 => h (List.length_eq_zero.mp h0))]

theorem remove_outliers_of_prices_nil {ph : Phone} (h : ph.prices = []) (d : ℚ) :
    ph.remove_outliers d = [] := by
  unfold Phone.remove_outliers
  rw [h]
  rfl

/-! Claim theorems. -/

/-- C3: outlier removal computes the mean once over the original
unfiltered price list and returns, in a single pass, exactly the subset
of entries whose absolute deviation from that mean is strictly less
than the threshold times the mean; it agrees with the direct
transcription of the contract and is never re-applied to its own
output. -/
theorem remove_outliers_matches_spec (ph : Phone) (deviation : ℚ) :
    ph.remove_outliers deviation = remove_outliers_spec ph.prices deviation := by
  by_cases h : ph.prices.length = 0
  · have hnil : ph.prices = [] := List.length_eq_zero.mp h
    simp [Phone.remove_outliers, remove_outliers_spec, hnil]
  · simp only [Phone.remove_outliers, remove_outliers_spec, if_neg h]
    apply List.filter_congr
    intro p _
    rw [abs_sub_comm]

/-- C9: on the empty price list outlier removal returns the empty list
for every threshold; the length guard returns before the mean and its
division by the list length are ever computed. -/
theorem remove_outliers_empty (info : PhoneInfo) (deviation : ℚ) :
    (Phone.mk info []).remove_outliers deviation = [] := rfl

/-- C10: for every Phone the cheapest value is at most the most
expensive value: both are derived from the same outlier-filtered list
by a fold with min respectively max, and both default to 0 when that
list is empty. -/
theorem cheapest_le_most_expensive (ph : Phone) :
    ph.cheapest ≤ ph.most_expensive := by
  unfold Phone.cheapest Phone.most_expensive
  by_cases h : ph.remove_outliers (1/2) = []
  · rw [h, foldPrices_nil, foldPrices_nil]
  · rw [foldPrices_of_ne_nil h, foldPrices_of_ne_nil h]
    exact listMin_le_listMax fun hm => h (List.map_eq_nil_iff.mp hm)

/-- C4: cheapest is the minimum and most expensive the maximum of the
totals of the outlier-filtered price list; both are 0 when the filtered
list is empty, and in particular when the price list itself is
empty. -/
theorem cheapest_most_expensive_minmax (ph : Phone) :
    (ph.remove_outliers (1/2) = [] → ph.cheapest = 0 ∧ ph.most_expensive = 0) ∧
    (ph.remove_outliers (1/2) ≠ [] →
      ph.cheapest ∈ (ph.remove_outliers (1/2)).map Price.total ∧
      (∀ x ∈ (ph.remove_outliers (1/2)).map Price.total, ph.cheapest ≤ x) ∧
      ph.most_expensive ∈ (ph.remove_outliers (1/2)).map Price.total ∧
      (∀ x ∈ (ph.remove_outliers (1/2)).map Price.total, x ≤ ph.most_expensive)) ∧
    (ph.prices = [] → ph.cheapest = 0 ∧ ph.most_expensive = 0) := by
  have hempty : ph.remove_outliers (1/2) = [] → ph.cheapest = 0 ∧ ph.most_expensive = 0 := by
    intro hfil
    unfold Phone.cheapest Phone.most_expensive
    rw [hfil]
    exact ⟨foldPrices_nil, foldPrices_nil⟩
  refine ⟨hempty, ?_, fun hp => hempty (remove_outliers_of_prices_nil hp (1/2))⟩
  intro hfil
  have hmapne : (ph.remove_outliers (1/2)).map Price.total ≠ [] :=
    fun hm => hfil (List.map_eq_nil_iff.mp hm)
  have hch : ph.cheapest = listMin ((ph.remove_outliers (1/2)).map Price.total) := by
    unfold Phone.cheapest
    rw [foldPrices_of_ne_nil hfil]
  have hme : ph.most_expensive = listMax ((ph.remove_outliers (1/2)).map Price.total) := by
    unfold Phone.most_expensive
    rw [foldPrices_of_ne_nil hfil]
  refine ⟨?_, ?_, ?_, ?_⟩
  · rw [hch]; exact listMin_mem hmapne
  · intro x hx; rw [hch]; exact listMin_le hx
  · rw [hme]; exact listMax_mem hmapne
  · intro x hx; rw [hme]; exact le_listMax hx

/-- Witness for C4: a phone with no prices has cheapest and most
expensive 0, and on a phone with totals 1 and 2 the cheapest value is a
member of the filtered totals. -/
theorem cheapest_most_expensive_witness :
    ((Phone.mk emptyInfo []).cheapest = 0 ∧ (Phone.mk emptyInfo []).most_expensive = 0) ∧
    (Phone.mk emptyInfo [Price.mk 1 0, Price.mk 2 0]).cheapest
      ∈ ((Phone.mk emptyInfo [Price.mk 1 0, Price.mk 2 0]).remove_outliers (1/2)).map
          Price.total := by
  have hfil : (Phone.mk emptyInfo [Price.mk 1 0, Price.mk 2 0]).remove_outliers (1/2)
      = [Price.mk 1 0, Price.mk 2 0] := by
    simp [Phone.remove_outliers, Price.total, abs_lt]
    norm_num
  exact ⟨(cheapest_most_expensive_minmax (Phone.mk emptyInfo [])).2.2 rfl,
    ((cheapest_most_expensive_minmax (Phone.mk emptyInfo [Price.mk 1 0, Price.mk 2 0])).2.1
      (by rw [hfil]; exact List.cons_ne_nil _ _)).1⟩

/-- Counterexample for C7: a nonempty zero-variance list whose common
total is 0 is not returned unchanged, because no deviation is strictly
below the threshold times the zero mean; with threshold one half the
single entry with total 0 is removed. -/
theorem remove_outliers_const_zero_cex :
    (0 : ℚ) < 1/2 ∧
      (Phone.mk emptyInfo [Price.mk 0 0]).remove_outliers (1/2) ≠ [Price.mk 0 0] := by
  constructor
  · norm_num
  · have h : (Phone.mk emptyInfo [Price.mk 0 0]).remove_outliers (1/2) = [] := by
      simp [Phone.remove_outliers, Price.total]
    rw [h]
    simp

/-- C7 (amended): for every nonempty price list with zero variance and
positive common total, and every threshold strictly greater than 0,
outlier removal returns the full list unchanged. -/
theorem remove_outliers_const_pos (ph : Phone) (d c : ℚ) (hne : ph.prices ≠ [])
    (hall : ∀ p ∈ ph.prices, p.total = c) (hd : 0 < d) (hc : 0 < c) :
    ph.remove_outliers d = ph.prices := by
  have hlen : ph.prices.length ≠ 0 := fun h0 => hne (List.length_eq_zero.mp h0)
  have hsum : (ph.prices.map Price.total).sum = (ph.prices.length : ℚ) * c := by
    rw [List.sum_eq_card_nsmul _ c ?_]
    · simp [nsmul_eq_mul]
    · intro x hx
      obtain ⟨p, hp, rfl⟩ := List.mem_map.mp hx
      exact hall p hp
  have havg : (ph.prices.map Price.total).sum / (ph.prices.length : ℚ) = c := by
    rw [hsum]
    exact mul_div_cancel_left₀ c (Nat.cast_ne_zero.mpr hlen)
  simp only [Phone.remove_outliers, if_neg hlen, havg]
  refine List.filter_eq_self.mpr ?_
  intro p hp
  simp only [hall p hp, sub_self, abs_zero, decide_eq_true_eq]
  exact mul_pos hd hc

/-- Witness for C7 (amended): a two-element list with common total 1
survives outlier removal at threshold one half unchanged. -/
theorem remove_outliers_const_pos_witness :
    (Phone.mk emptyInfo [Price.mk 1 0, Price.mk 1 0]).remove_outliers (1/2)
      = [Price.mk 1 0, Price.mk 1 0] :=
  remove_outliers_const_pos (Phone.mk emptyInfo [Price.mk 1 0, Price.mk 1 0]) (1/2) 1
    (List.cons_ne_nil _ _)
    (by intro p hp
        rcases List.mem_cons.mp hp with rfl | hp
        · norm_num [Price.total]
        · rcases List.mem_cons.mp hp with rfl | hp
          · norm_num [Price.total]
          · cases hp)
    (by norm_num) (by norm_num)

/-! Helper lemmas about the first match decomposition and the spec
side extraction fold. -/

theorem munch_cons_digit {c : Char} (hc : c.isDigit = true) (cs : List Char) :
    munch (c :: cs) = (c :: (munch cs).1, (munch cs).2) := by
  cases cs with
  | nil => simp [munch, hc]
  | cons d ds => simp [munch, hc]

theorem munch_dot_digit {d : Char} (hd : d.isDigit = true) (ds : List Char) :
    munch ('.' :: d :: ds) = ('.' :: d :: (munch ds).1, (munch ds).2) := by
  simp +decide [munch, hd]

theorem munch_stop : ∀ {rest : List Char}, stopsGroup rest = true → munch rest = ([], rest)
  | [], _ => rfl
  | [c], h => by
    have hc : c.isDigit = false := by simpa [stopsGroup] using h
    simp [munch, hc]
  | c :: d :: ds, h => by
    have h2 := h
    simp only [stopsGroup, Bool.and_eq_true, Bool.or_eq_true, Bool.not_eq_true'] at h2
    obtain ⟨hc, hrest⟩ := h2
    by_cases hcd : c = '.'
    · rcases hrest with hne | hd
      · rw [hcd] at hne; simp at hne
      · simp [munch, hc, hcd, hd]
    · simp [munch, hc, hcd]

theorem munch_prepend_digits {t g2 rest : List Char} (hm : munch t = (g2, rest)) :
    ∀ {ds : List Char}, (∀ c ∈ ds, c.isDigit = true) →
      munch (ds ++ t) = (ds ++ g2, rest)
  | [], _ => by simpa using hm
  | d :: ds, h => by
    have hd : d.isDigit = true := h d (List.mem_cons_self d ds)
    have ih := munch_prepend_digits hm (fun x hx => h x (List.mem_cons_of_mem d hx))
    rw [List.cons_append, munch_cons_digit hd, ih]
    simp

theorem localeGroup_cons_digit {c : Char} (hc : c.isDigit = true) :
    ∀ {g : List Char}, LocaleGroup g → LocaleGroup (c :: g) := by
  intro g hg
  cases hg with
  | single ds hne hd =>
    refine LocaleGroup.single _ (List.cons_ne_nil _ _) ?_
    intro x hx
    rcases List.mem_cons.mp hx with rfl | hx
    · exact hc
    · exact hd x hx
  | dotted ds g2 hne hd hg2 =>
    rw [← List.cons_append]
    refine LocaleGroup.dotted (c :: ds) g2 (List.cons_ne_nil c ds) ?_ hg2
    intro x hx
    rcases List.mem_cons.mp hx with rfl | hx
    · exact hc
    · exact hd x hx

theorem localeGroup_head : ∀ {g : List Char}, LocaleGroup g →
    ∃ x xs, g = x :: xs ∧ x.isDigit = true := by
  intro g hg
  cases hg with
  | single ds hne hd =>
    obtain ⟨x, xs, rfl⟩ := List.exists_cons_of_ne_nil hne
    exact ⟨x, xs, rfl, hd x (List.mem_cons_self x xs)⟩
  | dotted ds g2 hne hd hg2 =>
    obtain ⟨x, xs, rfl⟩ := List.exists_cons_of_ne_nil hne
    exact ⟨x, xs ++ '.' :: g2, by simp, hd x (List.mem_cons_self x xs)⟩

theorem munch_localeGroup {rest : List Char} (hstop : stopsGroup rest = true) :
    ∀ {g : List Char}, LocaleGroup g → munch (g ++ rest) = (g, rest) := by
  intro g hg
  induction hg with
  | single ds hne hd =>
    have := munch_prepend_digits (munch_stop hstop) hd
    simpa using this
  | dotted ds g2 hne hd hg2 ih =>
    obtain ⟨x, xs, hgx, hx⟩ := localeGroup_head hg2
    subst hgx
    have hm : munch (xs ++ rest) = (xs, rest) := by
      rw [List.cons_append, munch_cons_digit hx] at ih
      have h1 : (munch (xs ++ rest)).1 = xs := by
        have := congrArg Prod.fst ih
        simpa using this
      have h2 : (munch (xs ++ rest)).2 = rest := by
        have := congrArg Prod.snd ih
        simpa using this
      exact Prod.ext_iff.mpr ⟨h1, h2⟩
    have hdot : munch ('.' :: x :: (xs ++ rest)) = ('.' :: x :: xs, rest) := by
      rw [munch_dot_digit hx, hm]
    have := munch_prepend_digits hdot hd
    simpa [List.append_assoc] using this

theorem munch_sound : ∀ t : List Char,
    t = (munch t).1 ++ (munch t).2 ∧ stopsGroup (munch t).2 = true ∧
      ((munch t).1 = [] ∨ LocaleGroup (munch t).1 ∨
        ∃ g2, LocaleGroup g2 ∧ (munch t).1 = '.' :: g2)
  | [] => ⟨rfl, rfl, Or.inl rfl⟩
  | c :: cs => by
    by_cases hc : c.isDigit = true
    · obtain ⟨hsplit, hstop, hshape⟩ := munch_sound cs
      rw [munch_cons_digit hc]
      refine ⟨?_, by simpa using hstop, Or.inr (Or.inl ?_)⟩
      · simpa using congrArg (List.cons c) hsplit
      · show LocaleGroup (c :: (munch cs).1)
        rcases hshape with h0 | hL | ⟨g2, hg2, hdot⟩
        · rw [h0]
          exact LocaleGroup.single [c] (List.cons_ne_nil c []) (by simpa using hc)
        · exact localeGroup_cons_digit hc hL
        · rw [hdot]
          exact LocaleGroup.dotted [c] g2 (List.cons_ne_nil c [])
            (by simpa using hc) hg2
    · by_cases hcd : c = '.'
      · cases cs with
        | nil =>
          subst hcd
          exact ⟨by decide, by decide, Or.inl (by decide)⟩
        | cons d ds =>
          by_cases hd : d.isDigit = true
          · obtain ⟨hsplit, hstop, hshape⟩ := munch_sound ds
            subst hcd
            rw [munch_dot_digit hd]
            refine ⟨?_, by simpa using hstop, Or.inr (Or.inr ⟨d :: (munch ds).1, ?_, rfl⟩)⟩
            · simpa using congrArg (fun l => '.' :: d :: l) hsplit
            · rcases hshape with h0 | hL | ⟨g2, hg2, hdot⟩
              · rw [h0]
                exact LocaleGroup.single [d] (List.cons_ne_nil d []) (by simpa using hd)
              · exact localeGroup_cons_digit hd hL
              · rw [hdot]
                exact LocaleGroup.dotted [d] g2 (List.cons_ne_nil d [])
                  (by simpa using hd) hg2
          · subst hcd
            have hcf : Char.isDigit '.' = false := by decide
            have hm : munch ('.' :: d :: ds) = ([], '.' :: d :: ds) := by
              simp [munch, hcf, hd]
            rw [hm]
            refine ⟨rfl, ?_, Or.inl rfl⟩
            simp [stopsGroup, hcf, hd]
      · have hm : munch (c :: cs) = ([], c :: cs) := by
          cases cs with
          | nil => simp [munch, hc, hcd]
          | cons d ds => simp [munch, hc, hcd]
        rw [hm]
        refine ⟨rfl, ?_, Or.inl rfl⟩
        cases cs with
        | nil => simp [stopsGroup, hc]
        | cons d ds => simp [stopsGroup, hc, hcd]

theorem munch_localeGroup_of_digit {c : Char} (hc : c.isDigit = true) (cs : List Char) :
    LocaleGroup ((munch (c :: cs)).1) := by
  rw [munch_cons_digit hc]
  show LocaleGroup (c :: (munch cs).1)
  rcases (munch_sound cs).2.2 with h0 | hL | ⟨g2, hg2, hdot⟩
  · rw [h0]
    exact LocaleGroup.single [c] (List.cons_ne_nil c []) (by simpa using hc)
  · exact localeGroup_cons_digit hc hL
  · rw [hdot]
    exact LocaleGroup.dotted [c] g2 (List.cons_ne_nil c []) (by simpa using hc) hg2

theorem firstMatch_skip : ∀ {pre : List Char}, (∀ c ∈ pre, c.isDigit = false) →
    ∀ t, firstMatch (pre ++ t) = firstMatch t
  | [], _, t => rfl
  | c :: pre, h, t => by
    have hc : c.isDigit = false := h c (List.mem_cons_self c pre)
    have ih := firstMatch_skip (fun x hx => h x (List.mem_cons_of_mem c hx)) t
    rw [List.cons_append]
    simp only [firstMatch, hc, Bool.false_eq_true, if_false]
    exact ih

theorem firstMatch_localeGroup {pre g rest : List Char}
    (hpre : ∀ c ∈ pre, c.isDigit = false) (hg : LocaleGroup g)
    (hstop : stopsGroup rest = true) :
    firstMatch (pre ++ (g ++ rest)) = some (g, commaFrac rest) := by
  rw [firstMatch_skip hpre]
  have hmun := munch_localeGroup hstop hg
  obtain ⟨x, xs, rfl, hx⟩ := localeGroup_head hg
  rw [List.cons_append]
  unfold firstMatch
  rw [if_pos hx]
  rw [← List.cons_append, hmun]
  cases rest with
  | nil => rfl
  | cons c2 cs2 => simp [commaFrac]

theorem firstMatch_decomposition : ∀ {text : List Char}, (∃ c ∈ text, c.isDigit = true) →
    ∃ pre g rest, text = pre ++ (g ++ rest) ∧ (∀ c ∈ pre, c.isDigit = false) ∧
      LocaleGroup g ∧ stopsGroup rest = true
  | c :: cs, h => by
    by_cases hc : c.isDigit = true
    · refine ⟨[], (munch (c :: cs)).1, (munch (c :: cs)).2, ?_, by simp,
        munch_localeGroup_of_digit hc cs, (munch_sound (c :: cs)).2.1⟩
      simpa using (munch_sound (c :: cs)).1
    · have hcs : ∃ x ∈ cs, x.isDigit = true := by
        obtain ⟨x, hx, hxd⟩ := h
        rcases List.mem_cons.mp hx with rfl | hx
        · exact absurd hxd hc
        · exact ⟨x, hx, hxd⟩
      obtain ⟨pre, g, rest, hsplit, hpre, hg, hstop⟩ := firstMatch_decomposition hcs
      refine ⟨c :: pre, g, rest, by simp [hsplit], ?_, hg, hstop⟩
      intro x hx
      rcases List.mem_cons.mp hx with rfl | hx
      · simpa using hc
      · exact hpre x hx

theorem updateLastShipping_append (v : ℚ) :
    ∀ (xs : List Price) (p : Price),
      updateLastShipping (xs ++ [p]) v = some (xs ++ [Price.mk p.base_price v])
  | [], p => rfl
  | x :: xs, p => by
    have ih := updateLastShipping_append v xs p
    cases xs with
    | nil => simp [updateLastShipping]
    | cons y ys =>
      simp only [List.cons_append] at ih ⊢
      simp [updateLastShipping, ih]

theorem extract_prices_aux_eq_spec_go (frags : List (List Char)) :
    ∀ acc, extract_prices_aux frags acc = extract_prices_spec_go frags acc.reverse := by
  induction frags with
  | nil => intro acc; rfl
  | cons f rest ih =>
    intro acc
    by_cases hp : startsWithPlus f = true
    · cases hv : extract_price f with
      | error e =>
        cases acc with
        | nil => simp [extract_prices_aux, extract_prices_spec_go, hp, hv]
        | cons last tail => simp [extract_prices_aux, extract_prices_spec_go, hp, hv]
      | ok v =>
        cases acc with
        | nil =>
          simp [extract_prices_aux, extract_prices_spec_go, hp, hv, updateLastShipping]
        | cons last tail =>
          have hu := updateLastShipping_append v tail.reverse last
          have ihh := ih (Price.mk last.base_price v :: tail)
          simp only [List.reverse_cons] at ihh
          simp [extract_prices_aux, extract_prices_spec_go, hp, hv, hu, ihh,
            List.reverse_cons]
    · cases hv : extract_price f with
      | error e =>
        cases acc with
        | nil => simp [extract_prices_aux, extract_prices_spec_go, hp, hv]
        | cons last tail => simp [extract_prices_aux, extract_prices_spec_go, hp, hv]
      | ok v =>
        have ihh := ih (Price.mk v 0 :: acc)
        simp only [List.reverse_cons] at ihh
        cases acc with
        | nil => simpa [extract_prices_aux, extract_prices_spec_go, hp, hv] using ihh
        | cons last tail =>
          simpa [extract_prices_aux, extract_prices_spec_go, hp, hv,
            List.reverse_cons] using ihh

/-- C1: on every fragment sequence, price listing extraction agrees
with the explicit ordered fold of the contract, in which a fragment
starting with a plus sign is parsed and merged into the shipping field
of the most recently created Price (the final element of the output
built so far), every other fragment appends a new Price with base price
the parsed value and shipping 0, and the output therefore preserves
fragment order; consequently the base prices of a successful result are
the parsed values of the non plus fragments in document order. In
particular the fragments 19,99 EUR and + 4,99 EUR yield exactly one
Price with base 19.99, shipping 4.99 and total 24.98. -/
theorem extract_prices_order_scenario :
    (∀ frags, extract_prices frags = extract_prices_spec frags) ∧
    (∀ frags res, extract_prices frags = .ok res →
      ∃ vs, parsedValues (frags.filter (fun f => !(startsWithPlus f))) = .ok vs ∧
        res.map Price.base_price = vs) ∧
    (extract_prices [['1','9',',','9','9',' ','€'], ['+',' ','4',',','9','9',' ','€']]
        = .ok [Price.mk (1999/100) (499/100)] ∧
      Price.total (Price.mk (1999/100) (499/100)) = 2498/100) := by
  refine ⟨?_, ?_, ?_, ?_⟩
  · intro frags
    exact extract_prices_aux_eq_spec_go frags []
  · intro frags res h
    obtain ⟨vs, hvs, hbase⟩ := extract_prices_aux_base_prices frags [] res h
    exact ⟨vs, hvs, by simpa using hbase⟩
  · simp +decide [extract_prices, extract_prices_aux, extract_price, firstMatch, munch,
      natOfDigits, startsWithPlus]
    norm_num
  · norm_num [Price.total]

/-- Witness for C1: on the single fragment 10 the extraction returns
one Price with base 10, matching the parsed values of the non plus
fragments. -/
theorem extract_prices_order_witness :
    ∃ vs, parsedValues ([['1','0']].filter (fun f => !(startsWithPlus f))) = .ok vs ∧
      [Price.mk 10 0].map Price.base_price = vs :=
  extract_prices_order_scenario.2.1 [['1','0']] [Price.mk 10 0]
    (by simp +decide [extract_prices, extract_prices_aux, extract_price, firstMatch, munch,
          natOfDigits, startsWithPlus])

/-- C2: every fragment containing at least one digit decomposes into a
digitless prefix, the group of the first regex match (digit runs
grouped by dots, the fixed locale thousands convention) and a remainder
at which the match stops; on every such decomposition, of this or of
any other fragment, the parser returns the value of the group digits
with the dots stripped plus the comma fraction read from the remainder,
a fraction that defaults to 0 when absent, so only the first match
contributes and everything past it is ignored. In particular every
fragment of the shape euro sign, integer digits, comma, fraction digits
returns the value integer.fraction. -/
theorem parser_first_match :
    (∀ text : List Char, (∃ c ∈ text, c.isDigit = true) →
      ∃ pre g rest, text = pre ++ (g ++ rest) ∧ (∀ c ∈ pre, c.isDigit = false) ∧
        LocaleGroup g ∧ stopsGroup rest = true ∧
        extract_price text =
          .ok ((natOfDigits (g.filter Char.isDigit) : ℚ) + fracValue rest)) ∧
    (∀ pre g rest : List Char, (∀ c ∈ pre, c.isDigit = false) → LocaleGroup g →
      stopsGroup rest = true →
      extract_price (pre ++ (g ++ rest)) =
        .ok ((natOfDigits (g.filter Char.isDigit) : ℚ) + fracValue rest)) ∧
    (∀ intDs fracDs : List Char, intDs ≠ [] → fracDs ≠ [] →
      (∀ c ∈ intDs, c.isDigit = true) → (∀ c ∈ fracDs, c.isDigit = true) →
      extract_price ('€' :: (intDs ++ ',' :: fracDs)) =
        .ok ((natOfDigits intDs : ℚ) +
          (natOfDigits fracDs : ℚ) / (10 : ℚ) ^ fracDs.length)) := by
  have hval : ∀ pre g rest : List Char, (∀ c ∈ pre, c.isDigit = false) → LocaleGroup g →
      stopsGroup rest = true →
      extract_price (pre ++ (g ++ rest)) =
        .ok ((natOfDigits (g.filter Char.isDigit) : ℚ) + fracValue rest) := by
    intro pre g rest hpre hg hstop
    rw [extract_price_of_firstMatch (firstMatch_localeGroup hpre hg hstop)]
    by_cases hcf : commaFrac rest = []
    · have h0 : natOfDigits ['0'] = 0 := by decide
      simp [hcf, fracValue, h0, natOfDigits]
    · simp [hcf, fracValue]
  refine ⟨?_, hval, ?_⟩
  · intro text h
    obtain ⟨pre, g, rest, hsplit, hpre, hg, hstop⟩ := firstMatch_decomposition h
    refine ⟨pre, g, rest, hsplit, hpre, hg, hstop, ?_⟩
    rw [hsplit]
    exact hval pre g rest hpre hg hstop
  intro intDs fracDs hi hf hdi hdf
  obtain ⟨d, ds, rfl⟩ := List.exists_cons_of_ne_nil hi
  have hd : d.isDigit = true := hdi d (List.mem_cons_self d ds)
  have hmunch : munch ((d :: ds) ++ ',' :: fracDs) = (d :: ds, ',' :: fracDs) :=
    munch_digits_append (by decide) (by decide) fracDs hdi
  have hfm : firstMatch ('€' :: ((d :: ds) ++ ',' :: fracDs)) = some (d :: ds, fracDs) := by
    unfold firstMatch
    rw [if_neg (by decide : ¬('€'.isDigit = true))]
    rw [List.cons_append]
    unfold firstMatch
    rw [if_pos hd]
    rw [← List.cons_append, hmunch]
    simp [takeWhile_all hdf]
  rw [extract_price_of_firstMatch hfm, List.filter_eq_self.mpr hdi, if_neg hf]

/-- Witness for C2: the fragment x7 decomposes and parses to its first
match value; the fragment euro, blank, 1.234, blank, euro parses to
1234 with the thousands dot stripped and a fraction defaulting to 0;
and the fragment with euro sign, digits 19, comma, digits 99 parses to
the stated value. -/
theorem parser_first_match_witness :
    (∃ pre g rest, (['x','7'] : List Char) = pre ++ (g ++ rest) ∧
      (∀ c ∈ pre, c.isDigit = false) ∧ LocaleGroup g ∧ stopsGroup rest = true ∧
      extract_price ['x','7'] =
        .ok ((natOfDigits (g.filter Char.isDigit) : ℚ) + fracValue rest)) ∧
    extract_price (['€',' '] ++ (['1','.','2','3','4'] ++ [' ','€']))
      = .ok ((natOfDigits ((['1','.','2','3','4'] : List Char).filter Char.isDigit) : ℚ) +
          fracValue [' ','€']) ∧
    extract_price ('€' :: (['1','9'] ++ ',' :: ['9','9']))
      = .ok ((natOfDigits ['1','9'] : ℚ) +
          (natOfDigits ['9','9'] : ℚ) / (10 : ℚ) ^ (['9','9'] : List Char).length) :=
  ⟨parser_first_match.1 ['x','7'] (by decide),
   parser_first_match.2.1 ['€',' '] ['1','.','2','3','4'] [' ','€'] (by decide)
     (LocaleGroup.dotted ['1'] ['2','3','4'] (by decide) (by decide)
       (LocaleGroup.single ['2','3','4'] (by decide) (by decide)))
     (by decide),
   parser_first_match.2.2 ['1','9'] ['9','9'] (by decide) (by decide) (by decide)
     (by decide)⟩

/-- Counterexample for C5: when the very first fragment starts with a
plus sign, extraction does not raise any named OrderingError (no such
error exists in the code); it crashes with the null reference fault of
assigning the shipping attribute on None. -/
theorem plus_first_null_fault_cex :
    extract_prices [['+',' ','4',',','9','9',' ','€']] = .error .noneShippingAttr := by
  simp +decide [extract_prices, extract_prices_aux, extract_price, firstMatch, munch,
    natOfDigits, startsWithPlus]

/-- C5 (amended): a fragment sequence whose first fragment starts with
a plus sign makes extraction fail for that phone rather than silently
dropping the fragment: with the parse Exception when the fragment holds
no digits (the right hand side of the assignment is evaluated first),
and otherwise with the null reference fault of assigning the shipping
attribute on None; no named OrderingError exists in the code. -/
theorem plus_first_fails (f : List Char) (rest : List (List Char))
    (hp : startsWithPlus f = true) :
    ∃ e, extract_prices (f :: rest) = .error e ∧
      (e = ScrapeError.parseError f ∨ e = ScrapeError.noneShippingAttr) := by
  cases hv : extract_price f with
  | error e =>
    exact ⟨e, extract_prices_aux_error_head hv, Or.inl (extract_price_error hv)⟩
  | ok v =>
    refine ⟨.noneShippingAttr, ?_, Or.inr rfl⟩
    unfold extract_prices
    simp [extract_prices_aux, hp, hv]

/-- Witness for C5 (amended): the single plus character as first
fragment makes extraction fail with one of the two fatal errors. -/
theorem plus_first_fails_witness :
    ∃ e, extract_prices [['+']] = .error e ∧
      (e = ScrapeError.parseError ['+'] ∨ e = ScrapeError.noneShippingAttr) :=
  plus_first_fails ['+'] [] (by decide)

/-- C6: on every fragment with no digits the price parser fails with
the parse error naming the offending fragment, and the error is not
handled locally: extraction on a fragment list starting with such a
fragment propagates exactly that error to the caller. -/
theorem no_digits_parse_error :
    (∀ text : List Char, (∀ c ∈ text, c.isDigit = false) →
      extract_price text = .error (.parseError text)) ∧
    (∀ (text : List Char) (rest : List (List Char)), (∀ c ∈ text, c.isDigit = false) →
      extract_prices (text :: rest) = .error (.parseError text)) := by
  refine ⟨fun text h => extract_price_no_digits h, fun text rest h => ?_⟩
  exact extract_prices_aux_error_head (extract_price_no_digits h)

/-- Witness for C6: the fragment consisting of the letter a alone fails
with the parse error naming it, both in the parser and through the
extraction loop. -/
theorem no_digits_parse_error_witness :
    extract_price ['a'] = .error (.parseError ['a']) ∧
      extract_prices [['a'], ['5']] = .error (.parseError ['a']) :=
  ⟨no_digits_parse_error.1 ['a'] (by decide),
   no_digits_parse_error.2 ['a'] [['5']] (by decide)⟩

/-- Counterexample for C8: with two consecutive plus fragments the
shipping field of the single created Price is written twice, so it is
not written at most once. -/
theorem shipping_written_twice_cex :
    ∃ res, extract_prices_tr [['1'], ['+','2'], ['+','3']] = .ok res ∧
      ∃ pn ∈ res, 1 < Prod.snd pn := by
  refine ⟨[(Price.mk 1 3, 2)], ?_, (Price.mk 1 3, 2), List.mem_singleton_self _, by norm_num⟩
  simp +decide [extract_prices_tr, extract_prices_tr_aux, extract_price, firstMatch, munch,
    natOfDigits, startsWithPlus]

/-- C8 (amended): when no two consecutive fragments both start with a
plus sign, the shipping field of every created Price is written at most
once after construction; the base price field is never assigned after
construction in any run. -/
theorem shipping_written_once_no_consec (frags : List (List Char)) (res : List (Price × ℕ))
    (hnc : noConsecPlus frags = true) (h : extract_prices_tr frags = .ok res) :
    ∀ pn ∈ res, Prod.snd pn ≤ 1 :=
  extract_prices_tr_aux_counts frags [] res hnc (by simp)
    (by intro _ p n tail heq; cases heq) h

/-- Witness for C8 (amended): on the fragments 1, +2, 9 both created
prices have their shipping written at most once. -/
theorem shipping_written_once_witness :
    Prod.snd ((Price.mk 1 2 : Price), (1 : ℕ)) ≤ 1 ∧
      Prod.snd ((Price.mk 9 0 : Price), (0 : ℕ)) ≤ 1 := by
  have h := shipping_written_once_no_consec [['1'], ['+','2'], ['9']]
    [(Price.mk 1 2, 1), (Price.mk 9 0, 0)] (by decide)
    (by simp +decide [extract_prices_tr, extract_prices_tr_aux, extract_price, firstMatch,
          munch, natOfDigits, startsWithPlus])
  exact ⟨h (Price.mk 1 2, 1) (by simp), h (Price.mk 9 0, 0) (by simp)⟩
